import Mathlib

/-!
# Verification of the vectorizer matrix conversion engine

A shallow embedding of the request-level glue in `src/app.py` together with
spec-modelled definitions for the `matrix_utils` core (image/video sampling,
literal codec, heatmap rendering), and theorems settling the specification
claims about them.

Python strings are modelled as Lean `String`/`List Char` (ASCII fragment),
Python `int` as `Int`, and numeric matrix entries as `ℚ`.
-/

namespace Vectorizer

/-! ## Python primitives used by `app.py` -/

/-- ASCII whitespace recognised by Python's `str.strip` / `int` / `float`. -/
def isPySpace (c : Char) : Bool :=
  c == ' ' || c == '\t' || c == '\n' || c == '\r' || c == '\x0b' || c == '\x0c'

/-- Python `str.strip()`: remove leading and trailing whitespace. -/
def pyStrip (s : String) : String :=
  ⟨(((s.data.dropWhile isPySpace).reverse.dropWhile isPySpace).reverse)⟩

/-- Numeric value of an ASCII digit character. -/
def digitVal (c : Char) : Nat := c.toNat - 48

/-- Digit run with Python's underscore grouping rule: an underscore must sit
between two digits (`int("1_0") = 10`, `int("1__0")` and `int("1_")` fail). -/
def pyDigitsAux : List Char → Nat → Option Nat
  | [], acc => some acc
  | '_' :: c :: cs, acc =>
      if c.isDigit then pyDigitsAux cs (acc * 10 + digitVal c) else none
  | ['_'], _ => none
  | c :: cs, acc =>
      if c.isDigit then pyDigitsAux cs (acc * 10 + digitVal c) else none

/-- A full digit group: at least one digit, underscores only between digits. -/
def pyDigits? : List Char → Option Nat
  | c :: cs => if c.isDigit then pyDigitsAux cs (digitVal c) else none
  | [] => none

/-- Sign handling of Python `int`/`float` literals. -/
def stripSign : List Char → List Char
  | '+' :: cs => cs
  | '-' :: cs => cs
  | cs => cs

/-- Whether the (stripped) character list starts with a minus sign. -/
def hasMinus : List Char → Bool
  | '-' :: _ => true
  | _ => false

/-- Python `int(s)` on a string: strip whitespace, optional sign, digit group
with underscores; `none` models a raised `ValueError`. -/
def pyInt? (s : String) : Option Int :=
  let t := (pyStrip s).data
  let mag := pyDigits? (stripSign t)
  match t with
  | '+' :: _ => mag.map Int.ofNat
  | '-' :: _ => mag.map (fun n => -(n : Int))
  | _ => mag.map Int.ofNat

/-- Whether a digit group (possibly empty input) is acceptable. -/
def pyDigitsOk (l : List Char) : Bool := (pyDigits? l).isSome

/-- Mantissa of a Python float literal: `digits`, `digits.`, `digits.digits`
or `.digits`. -/
def pyMantissaOk (l : List Char) : Bool :=
  let ip := l.takeWhile (fun c => c != '.')
  let rest := l.dropWhile (fun c => c != '.')
  match rest with
  | [] => pyDigitsOk ip
  | _ :: fp =>
      if ip.isEmpty then pyDigitsOk fp
      else if fp.isEmpty then pyDigitsOk ip
      else pyDigitsOk ip && pyDigitsOk fp

/-- Exponent part of a Python float literal: optional sign then digits. -/
def pyExpOk (l : List Char) : Bool := pyDigitsOk (stripSign l)

/-- Python `float(s)` acceptance (ASCII fragment): after stripping, an
optional sign then either `inf`/`infinity`/`nan` (case-insensitive) or a
mantissa with an optional `e`-exponent. -/
def pyFloatOk (s : String) : Bool :=
  let l := (pyStrip s).data.map Char.toLower
  let core := stripSign l
  if core == "inf".data || core == "infinity".data || core == "nan".data then
    true
  else
    let mant := core.takeWhile (fun c => c != 'e')
    let rest := core.dropWhile (fun c => c != 'e')
    match rest with
    | [] => pyMantissaOk mant
    | _ :: ex => pyMantissaOk mant && pyExpOk ex

/-! ## `app.py` request-layer helpers -/

/-- Upper bound on emitted video frames (`MAX_FRAMES_DISPLAY` in `app.py`). -/
def MAX_FRAMES_DISPLAY : Int := 25

/-- The color-scale selector options (`PLOT_CMAPS` in `app.py`). -/
def PLOT_CMAPS : List (String × String) :=
  [("gray", "Gray"), ("viridis", "Viridis"), ("plasma", "Plasma"),
   ("magma", "Magma"), ("inferno", "Inferno")]

/-- Default plot color scale (`PLOT_DEFAULT_FORM["plot_cmap"]`). -/
def plotDefaultCmap : String := "gray"

/-- `_safe_int` from `app.py`: parse with fallback to the default on `None`
or a `ValueError`, then clamp below by `min_value` and, when present, above
by `max_value`. -/
def _safe_int (raw_value : Option String) (default : Int) (min_value : Int)
    (max_value : Option Int) : Int :=
  let value : Int :=
    match raw_value with
    | none => default
    | some s => (pyInt? s).getD default
  let clamped := max min_value value
  match max_value with
  | none => clamped
  | some mx => min mx clamped

/-- `_parse_optional_float` from `app.py`. The accepted IEEE value is outside
the embedding; success carries the stripped literal that `float` accepted. -/
def _parse_optional_float (raw_value : Option String) (field_name : String) :
    Except String (Option String) :=
  match raw_value with
  | none => .ok none
  | some s =>
      let stripped := pyStrip s
      if stripped = "" then .ok none
      else if pyFloatOk stripped then .ok (some stripped)
      else .error (field_name ++ " must be a number.")

/-- Python's `x or default` on an optional string field: `None` and the empty
string are falsy. -/
def pyOrString : Option String → String → String
  | none, d => d
  | some s, d => if s = "" then d else s

/-- Color-scale resolution in the plot branch of `index` (`app.py` lines
111–115): fall back to the default on a missing/empty field, then replace
any name outside `PLOT_CMAPS` by the default. -/
def resolveCmap (form_value : Option String) : String :=
  let requested := pyOrString form_value plotDefaultCmap
  if requested ∈ PLOT_CMAPS.map Prod.fst then requested else plotDefaultCmap

/-- `frame_skip` as computed by the video branch of `index` (`app.py` line
68). -/
def frameSkipOf (raw : Option String) : Int := _safe_int raw 1 1 none

/-- `max_frames` as computed by the video branch of `index` (`app.py` lines
69–74). -/
def maxFramesOf (raw : Option String) : Int :=
  _safe_int raw 10 1 (some MAX_FRAMES_DISPLAY)

/-- The integer a raw form field parses to, with the branch default standing
in for an absent or unparsable field. -/
def pyIntWithDefault (raw : Option String) (d : Int) : Int :=
  match raw with
  | none => d
  | some s => (pyInt? s).getD d

/-- Clamping of a value to `[mn, mx]` (upper bound optional), as `_safe_int`
applies it. -/
def clampTo (mn : Int) (mx : Option Int) (v : Int) : Int :=
  match mx with
  | none => max mn v
  | some m => min m (max mn v)

/-! ## Claims about the request-layer helpers -/

/-- C2: for every raw form input, the frame-selection parameters are clamped
rather than rejected: the `frame_skip` used is `max 1` of the parsed value
(default 1), the `max_frames` used is the parsed value (default 10) clamped
into `[1, 25]`, and both always lie in their stated ranges. -/
theorem frame_params_clamped (raw_skip raw_max : Option String) :
    frameSkipOf raw_skip = max 1 (pyIntWithDefault raw_skip 1) ∧
    maxFramesOf raw_max = min 25 (max 1 (pyIntWithDefault raw_max 10)) ∧
    1 ≤ frameSkipOf raw_skip ∧
    1 ≤ maxFramesOf raw_max ∧ maxFramesOf raw_max ≤ 25 := by
  refine ⟨?_, ?_, ?_, ?_, ?_⟩
  · cases raw_skip <;>
      simp [frameSkipOf, _safe_int, pyIntWithDefault]
  · cases raw_max <;>
      simp [maxFramesOf, _safe_int, pyIntWithDefault, MAX_FRAMES_DISPLAY]
  · cases raw_skip <;>
      simp [frameSkipOf, _safe_int, pyIntWithDefault]
  · cases raw_max <;>
    · simp only [maxFramesOf, _safe_int, MAX_FRAMES_DISPLAY]
      omega
  · cases raw_max <;>
    · simp only [maxFramesOf, _safe_int, MAX_FRAMES_DISPLAY]
      omega

/-- C8: `_safe_int` is total and its result is clamped: at least `min_value`,
at most `max_value` when one is given (assuming `min_value ≤ max_value`), and
a `None` or non-numeric input yields the clamped default. -/
theorem safe_int_total_clamped (raw : Option String) (d mn : Int)
    (mx : Option Int) (hle : ∀ m, mx = some m → mn ≤ m) :
    mn ≤ _safe_int raw d mn mx ∧
    (∀ m, mx = some m → _safe_int raw d mn mx ≤ m) ∧
    ((raw = none ∨ ∃ s, raw = some s ∧ pyInt? s = none) →
      _safe_int raw d mn mx = clampTo mn mx d) := by
  refine ⟨?_, ?_, ?_⟩
  · cases mx with
    | none => cases raw <;> simp [_safe_int]
    | some m =>
        have := hle m rfl
        cases raw <;> · simp only [_safe_int]; omega
  · intro m hm
    subst hm
    cases raw <;> · simp only [_safe_int]; omega
  · rintro (rfl | ⟨s, rfl, hs⟩) <;>
      cases mx <;> simp [_safe_int, clampTo, *]

/-- Concrete instance of `safe_int_total_clamped`: the string `"abc"` is not
numeric, so `max_frames` falls back to the clamped default. -/
theorem safe_int_total_clamped_witness :
    _safe_int (some "abc") 10 1 (some 25) = 10 := by
  have h := safe_int_total_clamped (some "abc") 10 1 (some 25)
    (by intro m hm; cases hm; decide)
  have h2 := h.2.2 (Or.inr ⟨"abc", rfl, by decide⟩)
  simpa [clampTo] using h2

/-- C3: `_parse_optional_float` returns `none` on an absent field and on a
field that strips to the empty string, and on a non-empty field that Python
`float` rejects it fails with exactly the message
`field_name ++ " must be a number."`. -/
theorem parse_optional_float_spec (raw : Option String) (field : String) :
    (raw = none → _parse_optional_float raw field = .ok none) ∧
    (∀ s, raw = some s → pyStrip s = "" →
      _parse_optional_float raw field = .ok none) ∧
    (∀ s, raw = some s → pyStrip s ≠ "" → pyFloatOk (pyStrip s) = false →
      _parse_optional_float raw field =
        .error (field ++ " must be a number.")) := by
  refine ⟨?_, ?_, ?_⟩
  · rintro rfl; rfl
  · rintro s rfl h
    simp [_parse_optional_float, h]
  · rintro s rfl h1 h2
    simp [_parse_optional_float, h1, h2]

/-- Concrete instance of `parse_optional_float_spec`: the field value
`"abc"` produces the exact vmin error message. -/
theorem parse_optional_float_spec_witness :
    _parse_optional_float (some "abc") "vmin" =
      .error "vmin must be a number." := by
  have h := (parse_optional_float_spec (some "abc") "vmin").2.2 "abc" rfl
    (by decide) (by decide)
  exact h

theorem dropWhile_eq_nil_of_all {p : Char → Bool} {l : List Char}
    (h : ∀ c ∈ l, p c = true) : l.dropWhile p = [] := by
  induction l with
  | nil => rfl
  | cons a as ih =>
      simp only [List.dropWhile_cons, h a (by simp), if_true]
      exact ih fun c hc => h c (by simp [hc])

/-- Stripping a whitespace-only string yields the empty string. -/
theorem pyStrip_all_space {s : String} (h : ∀ c ∈ s.data, isPySpace c = true) :
    pyStrip s = "" := by
  simp [pyStrip, dropWhile_eq_nil_of_all h]

/-- C9: a vmin/vmax field consisting only of whitespace is treated like an
absent field: `_parse_optional_float` returns `none`, not an error. -/
theorem whitespace_only_field_treated_absent (s : String) (field : String)
    (hws : ∀ c ∈ s.data, isPySpace c = true) :
    _parse_optional_float (some s) field = .ok none := by
  simp [_parse_optional_float, pyStrip_all_space hws]

/-- Concrete instance of `whitespace_only_field_treated_absent` on a
non-empty whitespace-only field. -/
theorem whitespace_only_field_treated_absent_witness :
    _parse_optional_float (some " \t ") "vmin" = .ok none :=
  whitespace_only_field_treated_absent " \t " "vmin" (by decide)

/-- A name outside the `PLOT_CMAPS` enumeration resolves to `"gray"`. -/
theorem resolveCmap_of_not_mem {s : String}
    (hs : s ∉ PLOT_CMAPS.map Prod.fst) : resolveCmap (some s) = "gray" := by
  by_cases h : s = ""
  · subst h; decide
  · simp [resolveCmap, pyOrString, h, hs, plotDefaultCmap]

/-- C10: every plot request passes `matrix_to_plot_png` a color-scale name
from the five-element enumeration: the resolved name is always a member of
`PLOT_CMAPS`, a missing or empty field resolves to `"gray"`, and a value
outside the enumeration resolves to `"gray"`. -/
theorem plot_cmap_always_valid (v : Option String) :
    resolveCmap v ∈ PLOT_CMAPS.map Prod.fst ∧
    ((v = none ∨ v = some "") → resolveCmap v = "gray") ∧
    (∀ s, v = some s → s ∉ PLOT_CMAPS.map Prod.fst →
      resolveCmap v = "gray") := by
  refine ⟨?_, ?_, ?_⟩
  · cases v with
    | none => decide
    | some s =>
        by_cases hs : s = ""
        · subst hs; decide
        · by_cases hmem : s ∈ PLOT_CMAPS.map Prod.fst
          · simp [resolveCmap, pyOrString, hs, hmem]
          · rw [resolveCmap_of_not_mem hmem]; decide
  · rintro (rfl | rfl) <;> decide
  · rintro s rfl hmem
    exact resolveCmap_of_not_mem hmem

/-- Concrete instance of `plot_cmap_always_valid`: the unrecognized name
`"jet"` resolves to `"gray"`. -/
theorem plot_cmap_always_valid_witness :
    resolveCmap (some "jet") = "gray" :=
  (plot_cmap_always_valid (some "jet")).2.2 "jet" rfl (by decide)

/-! ## Heatmap Renderer (spec-modelled)

The renderer `matrix_to_plot_png` lives in `matrix_utils`, which is not part
of the supplied source; it is modelled from the spec (§4.4): validate the
matrix, resolve vmin/vmax bounds (explicit values else data min/max), fail
with a range error when `vmin > vmax`, and map entries through the named
color scale with clamping at the bounds. -/

/-- The five color scales of the closed enumeration. -/
inductive CmapId
  | gray
  | viridis
  | plasma
  | magma
  | inferno
deriving DecidableEq

/-- The renderer error kinds of spec §7 that `matrix_to_plot_png` can raise. -/
inductive RenderFailure
  | rangeError
  | renderError
  | unknownCmap
deriving DecidableEq

/-- Lookup of a color-scale name in the fixed enumeration. -/
def cmapOfName (s : String) : Option CmapId :=
  if s = "gray" then some .gray
  else if s = "viridis" then some .viridis
  else if s = "plasma" then some .plasma
  else if s = "magma" then some .magma
  else if s = "inferno" then some .inferno
  else none

/-- Per-render configuration (spec §3 RenderSpec). -/
structure RenderSpec where
  cmap : String
  vmin : Option ℚ
  vmax : Option ℚ
  title : Option String
deriving DecidableEq

/-- The rendered raster, abstracted: the scale used, the drawn title, and
each entry's clamped, normalized position in the scale. -/
structure PlotImage where
  cmap : CmapId
  title : Option String
  pixels : List (List ℚ)
deriving DecidableEq

/-- All entries of a matrix, row-major. -/
def matEntries : List (List ℚ) → List ℚ
  | [] => []
  | r :: rs => r ++ matEntries rs

/-- Minimum of a list of rationals (0 on the empty list). -/
def listMin : List ℚ → ℚ
  | [] => 0
  | x :: xs => xs.foldl min x

/-- Maximum of a list of rationals (0 on the empty list). -/
def listMax : List ℚ → ℚ
  | [] => 0
  | x :: xs => xs.foldl max x

/-- Modelled from the spec: `matrix_to_plot_png` from `matrix_utils` (spec
§4.4), with the PNG encoding abstracted to a `PlotImage`. Re-validates the
matrix, resolves bounds (explicit vmin/vmax else data min/max), raises a
range error on `vmin > vmax` (never swapping), then clamps and normalizes
every entry into the named scale. -/
def matrix_to_plot_png (M : List (List ℚ)) (spec : RenderSpec) :
    Except RenderFailure PlotImage :=
  if M.isEmpty || M.any (fun r => r.isEmpty) then .error .renderError
  else
    let lo := spec.vmin.getD (listMin (matEntries M))
    let hi := spec.vmax.getD (listMax (matEntries M))
    if hi < lo then .error .rangeError
    else
      match cmapOfName spec.cmap with
      | none => .error .unknownCmap
      | some cm =>
          .ok ⟨cm, spec.title,
            M.map (List.map (fun v => (min hi (max lo v) - lo) / (hi - lo)))⟩

/-- The plot branch of `index` (`app.py` lines 111–144): the requested
color-scale field is resolved against the enumeration before the renderer is
called with it. -/
def plotCall (M : List (List ℚ)) (vmin vmax : Option ℚ)
    (title : Option String) (cmap_field : Option String) :
    Except RenderFailure PlotImage :=
  matrix_to_plot_png M ⟨resolveCmap cmap_field, vmin, vmax, title⟩

/-- C6: on a well-formed matrix, whenever the resolved bounds satisfy
`vmin > vmax`, rendering fails with the range error; the bounds are not
swapped. -/
theorem render_range_error (M : List (List ℚ)) (spec : RenderSpec)
    (hM : M ≠ []) (hrows : ∀ r ∈ M, r ≠ [])
    (hlt : spec.vmax.getD (listMax (matEntries M)) <
           spec.vmin.getD (listMin (matEntries M))) :
    matrix_to_plot_png M spec = .error .rangeError := by
  have h1 : M.isEmpty = false := by
    cases M with
    | nil => exact absurd rfl hM
    | cons r rs => rfl
  have h2 : M.any (fun r => r.isEmpty) = false := by
    rw [List.any_eq_false]
    intro r hr
    have hne := hrows r hr
    cases r with
    | nil => exact absurd rfl hne
    | cons x xs => simp
  simp [matrix_to_plot_png, h1, h2, hlt]

/-- Concrete instance of `render_range_error`: explicit bounds
`vmin = 10 > 5 = vmax` on the matrix `[[0]]`. -/
theorem render_range_error_witness :
    matrix_to_plot_png [[0]] ⟨"gray", some 10, some 5, none⟩ =
      .error .rangeError := by
  refine render_range_error [[0]] ⟨"gray", some 10, some 5, none⟩
    (by simp) ?_ (by norm_num)
  rintro r hr
  simp at hr
  simp [hr]

/-- C4: rendering through the plot pipeline with a color-scale name outside
the closed enumeration produces exactly the output of rendering with
`"gray"`. -/
theorem unknown_cmap_renders_as_gray (M : List (List ℚ))
    (vmin vmax : Option ℚ) (title : Option String) (s : String)
    (hs : s ∉ PLOT_CMAPS.map Prod.fst) :
    plotCall M vmin vmax title (some s) =
      plotCall M vmin vmax title (some "gray") := by
  have h1 : resolveCmap (some s) = "gray" := resolveCmap_of_not_mem hs
  have h2 : resolveCmap (some "gray") = "gray" := by decide
  simp [plotCall, h1, h2]

/-- Concrete instance of `unknown_cmap_renders_as_gray` at the name
`"not-a-scale"`. -/
theorem unknown_cmap_renders_as_gray_witness :
    plotCall [[0, 1]] none none none (some "not-a-scale") =
      plotCall [[0, 1]] none none none (some "gray") :=
  unknown_cmap_renders_as_gray [[0, 1]] none none none "not-a-scale"
    (by decide)

/-! ## Video Sampler (spec-modelled)

`video_to_matrices` lives in `matrix_utils`, which is not part of the
supplied source; its frame walk is modelled from the spec (§4.2): a frame is
selected when its 0-based decode index modulo `frame_skip` is 0, and the
walk stops at `max_frames` selections or stream exhaustion. Decoding and the
per-frame Image Sampler pipeline are abstracted into the frame list and the
`convert` function. -/

/-- The frame-selection walk: `idx` is the 0-based decode index of the next
frame, `r` the number of selections still allowed. -/
def sampleLoop {α : Type} (skip : Nat) : List α → Nat → Nat → List α
  | _, _, 0 => []
  | [], _, _ => []
  | f :: fs, idx, r + 1 =>
      if idx % skip = 0 then f :: sampleLoop skip fs (idx + 1) r
      else sampleLoop skip fs (idx + 1) (r + 1)

/-- Pair each element with its 0-based index, starting at `i`. -/
def indexFrom {α : Type} (i : Nat) : List α → List (Nat × α)
  | [] => []
  | x :: xs => (i, x) :: indexFrom (i + 1) xs

/-- Modelled from the spec: `video_to_matrices` from `matrix_utils` (spec
§4.2), over an already-decoded frame stream: each selected frame goes
through the Image Sampler pipeline `convert`. -/
def video_to_matrices {α β : Type} (convert : α → β) (frames : List α)
    (frame_skip max_frames : Nat) : List β :=
  (sampleLoop frame_skip frames 0 max_frames).map convert

/-- The frame walk selects exactly the frames whose decode index is 0 modulo
the stride, truncated to the selection budget. -/
theorem sampleLoop_eq_filter {α : Type} (skip : Nat) (frames : List α) :
    ∀ idx r : Nat,
      sampleLoop skip frames idx r =
        (((indexFrom idx frames).filter
          (fun p => p.1 % skip == 0)).map Prod.snd).take r := by
  induction frames with
  | nil => intro idx r; cases r <;> simp [sampleLoop, indexFrom]
  | cons f fs ih =>
      intro idx r
      cases r with
      | zero => simp [sampleLoop]
      | succ n =>
          simp only [sampleLoop, indexFrom, List.filter_cons]
          by_cases h : idx % skip = 0
          · simp [h, ih (idx + 1) n]
          · simp [h, ih (idx + 1) (n + 1)]

/-- C5: over a decodable stream of at least 10 frames, the policy
`(frame_skip = 2, max_frames = 3)` yields exactly the 3 matrices of the
frames at decode indices 0, 2, 4; in general the sampler emits the
conversions of the frames whose 0-based index is 0 modulo `frame_skip`,
stopping at `max_frames` selections or stream exhaustion. -/
theorem video_frame_cap {α β : Type} (convert : α → β) (a b c d e : α)
    (rest : List α) (hlen : 5 ≤ rest.length) :
    video_to_matrices convert (a :: b :: c :: d :: e :: rest) 2 3 =
      [convert a, convert c, convert e] ∧
    (video_to_matrices convert (a :: b :: c :: d :: e :: rest) 2 3).length
      = 3 ∧
    (∀ (frames : List α) (skip maxf : Nat),
      video_to_matrices convert frames skip maxf =
        ((((indexFrom 0 frames).filter
          (fun p => p.1 % skip == 0)).map Prod.snd).take maxf).map
            convert) := by
  refine ⟨?_, ?_, ?_⟩
  · simp [video_to_matrices, sampleLoop]
  · simp [video_to_matrices, sampleLoop]
  · intro frames skip maxf
    rw [video_to_matrices, sampleLoop_eq_filter]

/-- Concrete instance of `video_frame_cap` on a 10-frame stream. -/
theorem video_frame_cap_witness :
    video_to_matrices (fun n : Nat => n)
      [0, 1, 2, 3, 4, 5, 6, 7, 8, 9] 2 3 = [0, 2, 4] :=
  (video_frame_cap (fun n : Nat => n) 0 1 2 3 4 [5, 6, 7, 8, 9]
    (by decide)).1

/-! ## Image Sampler rescale step (spec-modelled)

`image_to_matrix` lives in `matrix_utils`, which is not part of the supplied
source; its rescale step is modelled from the spec (§4.1) over the already
resampled intensity grid (decode, grayscale and deterministic resize are
outside the embedding): linearly map the grid's own min/max range onto
[0, 255] rounding to nearest, and emit the constant 0 matrix when the range
is degenerate (min = max) instead of dividing by zero. -/

/-- Round a rational to the nearest integer, as a rational. -/
def roundQ (q : ℚ) : ℚ := ((round q : ℤ) : ℚ)

/-- Modelled from the spec: the linear intensity rescale of `image_to_matrix`
(spec §4.1), using the resampled data's own min/max. -/
def rescaleMatrix (M : List (List ℚ)) : List (List ℚ) :=
  let lo := listMin (matEntries M)
  let hi := listMax (matEntries M)
  if hi = lo then M.map (List.map (fun _ => 0))
  else M.map (List.map (fun v => roundQ ((v - lo) * 255 / (hi - lo))))

/-- Modelled from the spec: `image_to_matrix` from `matrix_utils` (spec
§4.1) on the resampled intensity grid, with the optional rescale step. -/
def image_to_matrix (pixels : List (List ℚ)) (rescale : Bool) :
    List (List ℚ) :=
  if rescale then rescaleMatrix pixels else pixels

theorem mem_matEntries {M : List (List ℚ)} {x : ℚ} :
    x ∈ matEntries M ↔ ∃ r ∈ M, x ∈ r := by
  induction M with
  | nil => simp [matEntries]
  | cons r rs ih => simp [matEntries, ih]

theorem foldl_min_const {xs : List ℚ} {c : ℚ} (h : ∀ x ∈ xs, x = c) :
    xs.foldl min c = c := by
  induction xs with
  | nil => rfl
  | cons x xs ih =>
      have hx : x = c := h x (by simp)
      simp only [List.foldl_cons, hx, min_self]
      exact ih fun y hy => h y (by simp [hy])

theorem foldl_max_const {xs : List ℚ} {c : ℚ} (h : ∀ x ∈ xs, x = c) :
    xs.foldl max c = c := by
  induction xs with
  | nil => rfl
  | cons x xs ih =>
      have hx : x = c := h x (by simp)
      simp only [List.foldl_cons, hx, max_self]
      exact ih fun y hy => h y (by simp [hy])

/-- C7: a uniform-intensity grid, rescaled, becomes the constant matrix of
the degenerate-range value 0, with the same shape — the sampler neither
divides by zero nor fails. -/
theorem uniform_image_rescales_constant (M : List (List ℚ)) (c : ℚ)
    (hM : M ≠ []) (hall : ∀ r ∈ M, ∀ v ∈ r, v = c) :
    image_to_matrix M true = M.map (List.map (fun _ => 0)) := by
  have hent : ∀ x ∈ matEntries M, x = c := by
    intro x hx
    obtain ⟨r, hr, hxr⟩ := mem_matEntries.mp hx
    exact hall r hr x hxr
  have heq : listMax (matEntries M) = listMin (matEntries M) := by
    cases hc : matEntries M with
    | nil => rfl
    | cons x xs =>
        have hx : x = c := hent x (by rw [hc]; simp)
        have hxs : ∀ y ∈ xs, y = c := by
          intro y hy; exact hent y (by rw [hc]; simp [hy])
        simp only [listMin, listMax, hx]
        rw [foldl_min_const hxs, foldl_max_const hxs]
  simp [image_to_matrix, rescaleMatrix, heq]

/-- Concrete instance of `uniform_image_rescales_constant` on a constant
2×2 grid of intensity 7. -/
theorem uniform_image_rescales_constant_witness :
    image_to_matrix [[7, 7], [7, 7]] true = [[0, 0], [0, 0]] := by
  have h := uniform_image_rescales_constant [[7, 7], [7, 7]] 7
    (by decide) (by decide)
  simpa using h

/-! ## Literal Codec (spec-modelled)

`format_matrix_as_sage` and `parse_matrix_literal` live in `matrix_utils`,
which is not part of the supplied source; they are modelled from the spec
(§4.3, §6): `format` emits `name = [[a, b], [c, d]]` with integer entries
printed without a decimal point, and `parse` tolerates surrounding
assignment syntax and whitespace, reads bracketed comma-separated rows of
numeric tokens matching `-?\d+(\.\d+)?` (decimal tokens as exact rationals),
ignores trailing text, and checks rectangularity. The formatter is modelled
on the integer fragment, which is all the round-trip claim quantifies
over. -/

/-- The ASCII digit character of a value below 10. -/
def digitChar (d : Nat) : Char := Char.ofNat (48 + d)

/-- Decimal digits of a natural number, most significant first. -/
def natChars (n : Nat) : List Char :=
  if n < 10 then [digitChar n]
  else natChars (n / 10) ++ [digitChar (n % 10)]
decreasing_by exact Nat.div_lt_self (by omega) (by omega)

/-- Decimal rendering of an integer: a minus sign on negatives, no decimal
point. -/
def intChars (z : ℤ) : List Char :=
  if z < 0 then '-' :: natChars z.natAbs else natChars z.natAbs

/-- Join pieces with the `", "` separator the formatter emits. -/
def joinSep : List (List Char) → List Char
  | [] => []
  | [x] => x
  | x :: y :: xs => x ++ ',' :: ' ' :: joinSep (y :: xs)

/-- One bracketed row of the literal. -/
def rowChars (r : List ℤ) : List Char :=
  '[' :: joinSep (r.map intChars) ++ [']']

/-- The bracketed row-major literal of a matrix. -/
def matrixChars (M : List (List ℤ)) : List Char :=
  '[' :: joinSep (M.map rowChars) ++ [']']

/-- Modelled from the spec: `format_matrix_as_sage` from `matrix_utils`
(spec §4.3), on the integer fragment: the assignment
`variable_name = [[...], ...]`. -/
def format_matrix_as_sage (M : List (List ℤ)) (variable_name : String) :
    String :=
  ⟨variable_name.data ++ ' ' :: '=' :: ' ' :: matrixChars M⟩

/-- Drop leading whitespace. -/
def skipWs (l : List Char) : List Char := l.dropWhile isPySpace

/-- Consume a maximal digit run, extending an accumulated value and digit
count. -/
def readDigitsAux : List Char → Nat → Nat → Nat × Nat × List Char
  | c :: cs, acc, k =>
      if c.isDigit then readDigitsAux cs (acc * 10 + digitVal c) (k + 1)
      else (acc, k, c :: cs)
  | [], acc, k => (acc, k, [])

/-- Consume a non-empty digit run: its value, its digit count, and the
remaining input. -/
def readDigits : List Char → Option (Nat × Nat × List Char)
  | c :: cs =>
      if c.isDigit then some (readDigitsAux cs (digitVal c) 1) else none
  | [] => none

/-- Read an unsigned numeric token `\d+(\.\d+)?` as an exact rational. -/
def readUnsigned (l : List Char) : Option (ℚ × List Char) :=
  match readDigits l with
  | none => none
  | some (n, _, rest) =>
      if rest.head? = some '.' then
        match readDigits rest.tail with
        | none => none
        | some (f, k, rest2) => some ((n : ℚ) + (f : ℚ) / (10 : ℚ) ^ k, rest2)
      else some ((n : ℚ), rest)

/-- Read a numeric token `-?\d+(\.\d+)?`. -/
def readNumber (l : List Char) : Option (ℚ × List Char) :=
  if l.head? = some '-' then (readUnsigned l.tail).map (fun p => (-p.1, p.2))
  else readUnsigned l

/-- Parse the comma-separated entries of a row after its opening bracket,
through the closing bracket. The fuel only bounds recursion depth; every
call consumes input, so input length is always enough fuel. -/
def parseEntriesAux : Nat → List Char → Except String (List ℚ × List Char)
  | 0, _ => .error "matrix literal is malformed"
  | fuel + 1, l =>
      (readNumber l).elim (.error "rows must contain numeric entries")
        (fun p =>
          if (skipWs p.2).head? = some ',' then
            (parseEntriesAux fuel (skipWs (skipWs p.2).tail)).map
              (fun q => (p.1 :: q.1, q.2))
          else if (skipWs p.2).head? = some ']' then
            .ok ([p.1], (skipWs p.2).tail)
          else .error "expected a comma or closing bracket in a row")

/-- Parse the comma-separated bracketed rows of the literal, through the
outer closing bracket. -/
def parseRowsAux : Nat → List Char → Except String (List (List ℚ) × List Char)
  | 0, _ => .error "matrix literal is malformed"
  | fuel + 1, l =>
      if l.head? = some '[' then
        (parseEntriesAux fuel (skipWs l.tail)).bind (fun p =>
          if (skipWs p.2).head? = some ',' then
            (parseRowsAux fuel (skipWs (skipWs p.2).tail)).map
              (fun q => (p.1 :: q.1, q.2))
          else if (skipWs p.2).head? = some ']' then
            .ok ([p.1], (skipWs p.2).tail)
          else .error "expected a comma or closing bracket between rows")
      else .error "each row must start with an opening bracket"

/-- Modelled from the spec: `parse_matrix_literal` from `matrix_utils` (spec
§4.3): tolerate anything before the literal (assignment syntax and
whitespace), parse the bracketed rows, ignore trailing text, and reject an
empty row list and non-rectangular row lengths. -/
def parse_matrix_literal (text : String) : Except String (List (List ℚ)) :=
  let l := text.data.dropWhile (fun c => c != '[')
  if l.head? = some '[' then
    (parseRowsAux (text.data.length + 1) (skipWs l.tail)).bind (fun p =>
      if p.1.isEmpty then .error "matrix must contain at least one row"
      else if p.1.all (fun r => r.length == p.1.headI.length) then .ok p.1
      else .error "matrix rows must all have the same length")
  else .error "input does not contain a matrix literal"

/-- Identifier characters after the first: letters, digits, underscore. -/
def validIdentChar (c : Char) : Bool := c.isAlpha || c.isDigit || c == '_'

/-- A valid bare identifier: non-empty, not digit-first, made of letters,
digits and underscores. -/
def validIdent (s : String) : Bool :=
  match s.data with
  | [] => false
  | c :: cs => (c.isAlpha || c == '_') && cs.all validIdentChar

/-! ### Digit-printing lemmas -/

theorem digitChar_spec {d : Nat} (hd : d < 10) :
    (digitChar d).isDigit = true ∧ isPySpace (digitChar d) = false ∧
    digitChar d ≠ '-' ∧ digitChar d ≠ '.' ∧ digitVal (digitChar d) = d := by
  interval_cases d <;> refine ⟨?_, ?_, ?_, ?_, ?_⟩ <;> decide

theorem natChars_mem {n : Nat} :
    ∀ c ∈ natChars n, ∃ d, d < 10 ∧ c = digitChar d := by
  induction n using Nat.strong_induction_on with
  | _ n ih =>
      rw [natChars]
      split
      · next h => intro c hc; simp at hc; exact ⟨n, h, hc⟩
      · next h =>
          intro c hc
          rw [List.mem_append] at hc
          rcases hc with hc | hc
          · exact ih (n / 10) (Nat.div_lt_self (by omega) (by omega)) c hc
          · simp at hc
            exact ⟨n % 10, Nat.mod_lt _ (by omega), hc⟩

theorem natChars_ne_nil (n : Nat) : natChars n ≠ [] := by
  rw [natChars]; split <;> simp

theorem natChars_all_digit {n : Nat} :
    ∀ c ∈ natChars n, c.isDigit = true := by
  intro c hc
  obtain ⟨d, hd, rfl⟩ := natChars_mem c hc
  exact (digitChar_spec hd).1

/-- The value a digit run contributes on top of an accumulator. -/
def foldDigits (acc : Nat) (ds : List Char) : Nat :=
  ds.foldl (fun a c => a * 10 + digitVal c) acc

theorem foldDigits_append (acc : Nat) (l1 l2 : List Char) :
    foldDigits acc (l1 ++ l2) = foldDigits (foldDigits acc l1) l2 := by
  simp [foldDigits, List.foldl_append]

theorem foldDigits_natChars (n : Nat) :
    ∀ acc, foldDigits acc (natChars n) =
      acc * 10 ^ (natChars n).length + n := by
  induction n using Nat.strong_induction_on with
  | _ n ih =>
      intro acc
      rw [natChars]
      split
      · next h =>
          simp [foldDigits, (digitChar_spec h).2.2.2.2]
      · next h =>
          rw [foldDigits_append,
            ih (n / 10) (Nat.div_lt_self (by omega) (by omega)) acc]
          have hd10 : n % 10 < 10 := Nat.mod_lt _ (by omega)
          simp only [foldDigits, List.foldl_cons, List.foldl_nil,
            (digitChar_spec hd10).2.2.2.2, List.length_append,
            List.length_singleton]
          have hdm : n / 10 * 10 + n % 10 = n := by omega
          calc (acc * 10 ^ (natChars (n / 10)).length + n / 10) * 10 + n % 10
              = acc * (10 ^ (natChars (n / 10)).length * 10) +
                  (n / 10 * 10 + n % 10) := by ring
            _ = acc * 10 ^ ((natChars (n / 10)).length + 1) + n := by
                rw [← pow_succ, hdm]

/-! ### Token-reading lemmas -/

theorem readDigitsAux_stop (l : List Char) (acc k : Nat)
    (h : ∀ c, l.head? = some c → c.isDigit = false) :
    readDigitsAux l acc k = (acc, k, l) := by
  cases l with
  | nil => rfl
  | cons c cs => simp [readDigitsAux, h c rfl]

theorem readDigitsAux_append (ds : List Char)
    (hds : ∀ c ∈ ds, c.isDigit = true) :
    ∀ (rest : List Char) (acc k : Nat),
      readDigitsAux (ds ++ rest) acc k =
        readDigitsAux rest (foldDigits acc ds) (k + ds.length) := by
  induction ds with
  | nil => intro rest acc k; simp [foldDigits]
  | cons d ds ih =>
      intro rest acc k
      have hd := hds d (by simp)
      simp only [List.cons_append, readDigitsAux, hd, if_true,
        List.append_eq]
      rw [ih (fun c hc => hds c (by simp [hc]))]
      have hk : k + 1 + ds.length = k + (d :: ds).length := by
        simp; omega
      rw [hk]
      rfl

theorem readDigits_natChars (n : Nat) (rest : List Char)
    (hrest : ∀ c, rest.head? = some c → c.isDigit = false) :
    readDigits (natChars n ++ rest) =
      some (n, ((natChars n).length, rest)) := by
  cases hnc : natChars n with
  | nil => exact absurd hnc (natChars_ne_nil n)
  | cons c cs =>
      have hcd : c.isDigit = true := natChars_all_digit c (by rw [hnc]; simp)
      have hcs : ∀ x ∈ cs, x.isDigit = true := by
        intro x hx
        exact natChars_all_digit x (by rw [hnc]; simp [hx])
      simp only [List.cons_append, readDigits, hcd, if_true]
      rw [readDigitsAux_append cs hcs rest (digitVal c) 1,
        readDigitsAux_stop rest _ _ hrest]
      have h1 : foldDigits (digitVal c) cs = n := by
        have h0 := foldDigits_natChars n 0
        rw [hnc] at h0
        simpa [foldDigits] using h0
      simp [h1, hnc]
      omega

/-- The condition on what may follow a numeric token for the reader to stop
exactly there. -/
def headNotNum (l : List Char) : Prop :=
  ∀ c, l.head? = some c → c.isDigit = false ∧ c ≠ '.'

theorem readUnsigned_natChars (n : Nat) (rest : List Char)
    (h : headNotNum rest) :
    readUnsigned (natChars n ++ rest) = some ((n : ℚ), rest) := by
  have hrd : ∀ c, rest.head? = some c → c.isDigit = false :=
    fun c hc => (h c hc).1
  have hdot : ¬rest.head? = some '.' := by
    intro hc
    exact (h '.' hc).2 rfl
  rw [readUnsigned, readDigits_natChars n rest hrd]
  simp [hdot]

theorem readNumber_intChars (z : ℤ) (rest : List Char) (h : headNotNum rest) :
    readNumber (intChars z ++ rest) = some ((z : ℚ), rest) := by
  by_cases hz : z < 0
  · simp only [intChars, if_pos hz, List.cons_append]
    rw [readNumber]
    simp only [List.head?_cons, List.tail_cons, if_pos rfl]
    rw [readUnsigned_natChars z.natAbs rest h]
    have h1 : (z.natAbs : ℤ) = -z := by omega
    have : -((z.natAbs : ℚ)) = (z : ℚ) := by
      have h2 : ((z.natAbs : ℤ) : ℚ) = (z.natAbs : ℚ) :=
        Int.cast_natCast z.natAbs
      rw [← h2, h1]
      simp
    simp [this]
  · simp only [intChars, if_neg hz]
    cases hnc : natChars z.natAbs with
    | nil => exact absurd hnc (natChars_ne_nil _)
    | cons c cs =>
        have hcd : c.isDigit = true :=
          natChars_all_digit c (by rw [hnc]; simp)
        have hcm : c ≠ '-' := by
          intro hceq
          rw [hceq] at hcd
          exact absurd hcd (by decide)
        rw [← hnc, readNumber]
        have hhead : ¬(natChars z.natAbs ++ rest).head? = some '-' := by
          rw [hnc]
          simpa using hcm
        rw [if_neg hhead, readUnsigned_natChars z.natAbs rest h]
        have : ((z.natAbs : ℚ)) = (z : ℚ) := by
          rw [Int.cast_natAbs]
          rw [abs_of_nonneg (by exact_mod_cast (not_lt.mp hz))]
        simp [this]

/-! ### Whitespace and head-shape lemmas -/

theorem skipWs_of_head_not_space {l : List Char}
    (h : ∀ c, l.head? = some c → isPySpace c = false) : skipWs l = l := by
  cases l with
  | nil => rfl
  | cons c cs => simp [skipWs, List.dropWhile_cons, h c rfl]

theorem skipWs_space_cons (l : List Char) : skipWs (' ' :: l) = skipWs l := by
  have hsp : isPySpace ' ' = true := rfl
  simp [skipWs, List.dropWhile_cons, hsp]

theorem intChars_ne_nil (z : ℤ) : intChars z ≠ [] := by
  simp only [intChars]
  split
  · simp
  · exact natChars_ne_nil _

theorem intChars_head_not_space (z : ℤ) :
    ∀ c, (intChars z).head? = some c → isPySpace c = false := by
  intro c hc
  simp only [intChars] at hc
  split at hc
  · simp only [List.head?_cons, Option.some_inj] at hc
    subst hc
    decide
  · cases hnc : natChars z.natAbs with
    | nil => exact absurd hnc (natChars_ne_nil _)
    | cons d ds =>
        rw [hnc] at hc
        simp only [List.head?_cons, Option.some_inj] at hc
        obtain ⟨d2, hd2, hdc⟩ := natChars_mem d (by rw [hnc]; simp)
        rw [← hc, hdc]
        exact (digitChar_spec hd2).2.1

theorem skipWs_intChars_append (z : ℤ) (l : List Char) :
    skipWs (intChars z ++ l) = intChars z ++ l := by
  apply skipWs_of_head_not_space
  intro c hc
  cases hnc : intChars z with
  | nil => exact absurd hnc (intChars_ne_nil z)
  | cons d ds =>
      rw [hnc] at hc
      simp only [List.cons_append, List.head?_cons, Option.some_inj] at hc
      rw [← hc]
      exact intChars_head_not_space z d (by rw [hnc]; simp)

theorem joinSep_cons_exists (x : List Char) (l : List (List Char)) :
    ∃ X, joinSep (x :: l) = x ++ X := by
  cases l with
  | nil => exact ⟨[], by simp [joinSep]⟩
  | cons y ys => exact ⟨',' :: ' ' :: joinSep (y :: ys), rfl⟩

theorem head_cons_not_space {c0 : Char} (h0 : isPySpace c0 = false)
    (l : List Char) : ∀ c, (c0 :: l).head? = some c → isPySpace c = false := by
  intro c hc
  simp only [List.head?_cons, Option.some_inj] at hc
  rw [← hc]
  exact h0

theorem headNotNum_cons {c0 : Char} (h1 : c0.isDigit = false) (h2 : c0 ≠ '.')
    (l : List Char) : headNotNum (c0 :: l) := by
  intro c hc
  simp only [List.head?_cons, Option.some_inj] at hc
  rw [← hc]
  exact ⟨h1, h2⟩

/-! ### Round trip of a row and of the row list -/

theorem except_map_ok {α β : Type} (f : α → β) (a : α) :
    (Except.ok a : Except String α).map f = .ok (f a) := rfl

theorem except_map_error {α β : Type} (f : α → β) (e : String) :
    (Except.error e : Except String α).map f = .error e := rfl

theorem except_bind_ok {α β : Type} (f : α → Except String β) (a : α) :
    (Except.ok a : Except String α).bind f = f a := rfl

theorem except_bind_error {α β : Type} (f : α → Except String β)
    (e : String) : (Except.error e : Except String α).bind f = .error e := rfl

theorem parseEntriesAux_encoded :
    ∀ (r : List ℤ) (rest : List Char) (fuel : Nat), r ≠ [] →
      (joinSep (r.map intChars) ++ ']' :: rest).length ≤ fuel →
      parseEntriesAux fuel (joinSep (r.map intChars) ++ ']' :: rest) =
        .ok (r.map (fun z : ℤ => (z : ℚ)), rest) := by
  intro r
  induction r with
  | nil => intro rest fuel hne; exact absurd rfl hne
  | cons a r2 ih =>
      intro rest fuel hne hfuel
      cases r2 with
      | nil =>
          cases fuel with
          | zero =>
              exfalso
              rw [List.length_append] at hfuel
              have : (']' :: rest).length = rest.length + 1 := rfl
              omega
          | succ f =>
              simp only [List.map_cons, List.map_nil, joinSep]
              simp only [parseEntriesAux]
              rw [readNumber_intChars a (']' :: rest)
                (headNotNum_cons (by decide) (by decide) rest)]
              have hsk : skipWs (']' :: rest) = ']' :: rest :=
                skipWs_of_head_not_space (head_cons_not_space (by decide) rest)
              simp [hsk]
      | cons b r3 =>
          cases fuel with
          | zero =>
              exfalso
              rw [List.length_append] at hfuel
              have : (']' :: rest).length = rest.length + 1 := rfl
              omega
          | succ f =>
              have hlen1 : 1 ≤ (intChars a).length :=
                List.length_pos.mpr (intChars_ne_nil a)
              have hfuel2 :
                  (joinSep ((b :: r3).map intChars) ++ ']' :: rest).length
                    ≤ f := by
                simp only [List.map_cons, joinSep, List.length_append,
                  List.length_cons] at hfuel ⊢
                omega
              have hih := ih rest f (by simp) hfuel2
              simp only [List.map_cons] at hih
              have hskS :
                  skipWs (joinSep (intChars b :: r3.map intChars) ++
                    ']' :: rest) =
                  joinSep (intChars b :: r3.map intChars) ++ ']' :: rest := by
                obtain ⟨X, hX⟩ := joinSep_cons_exists (intChars b)
                  (r3.map intChars)
                rw [hX, List.append_assoc]
                exact skipWs_intChars_append b _
              have hsk1 : skipWs (',' :: ' ' ::
                  (joinSep (intChars b :: r3.map intChars) ++ ']' :: rest)) =
                  ',' :: ' ' ::
                  (joinSep (intChars b :: r3.map intChars) ++ ']' :: rest) :=
                skipWs_of_head_not_space (head_cons_not_space (by decide) _)
              simp only [List.map_cons, joinSep, List.cons_append,
                List.append_assoc]
              simp only [parseEntriesAux]
              rw [readNumber_intChars a
                (',' :: ' ' :: (joinSep (intChars b :: r3.map intChars) ++
                  ']' :: rest))
                (headNotNum_cons (by decide) (by decide) _)]
              simp only [Option.elim_some]
              rw [hsk1]
              simp only [List.head?_cons, List.tail_cons, if_pos rfl]
              rw [skipWs_space_cons, hskS, hih, except_map_ok]
              simp

theorem skipWs_joinSep_intChars (a : ℤ) (R : List ℤ) (l : List Char) :
    skipWs (joinSep (intChars a :: R.map intChars) ++ l) =
      joinSep (intChars a :: R.map intChars) ++ l := by
  obtain ⟨X, hX⟩ := joinSep_cons_exists (intChars a) (R.map intChars)
  rw [hX, List.append_assoc]
  exact skipWs_intChars_append a _

theorem skipWs_rowChars_append (r : List ℤ) (l : List Char) :
    skipWs (rowChars r ++ l) = rowChars r ++ l := by
  simp only [rowChars, List.cons_append]
  exact skipWs_of_head_not_space (head_cons_not_space (by decide) _)

theorem skipWs_joinSep_rowChars (r : List ℤ) (L : List (List ℤ))
    (l : List Char) :
    skipWs (joinSep (rowChars r :: L.map rowChars) ++ l) =
      joinSep (rowChars r :: L.map rowChars) ++ l := by
  obtain ⟨X, hX⟩ := joinSep_cons_exists (rowChars r) (L.map rowChars)
  rw [hX, List.append_assoc]
  exact skipWs_rowChars_append r _

theorem parseRowsAux_encoded :
    ∀ (rs : List (List ℤ)) (rest : List Char) (fuel : Nat), rs ≠ [] →
      (∀ r ∈ rs, r ≠ []) →
      (joinSep (rs.map rowChars) ++ ']' :: rest).length ≤ fuel →
      parseRowsAux fuel (joinSep (rs.map rowChars) ++ ']' :: rest) =
        .ok (rs.map (List.map (fun z : ℤ => (z : ℚ))), rest) := by
  intro rs
  induction rs with
  | nil => intro rest fuel hne; exact absurd rfl hne
  | cons r rs2 ih =>
      intro rest fuel hne hr hfuel
      obtain ⟨a, r1, rfl⟩ : ∃ a r1, r = a :: r1 := by
        cases r with
        | nil => exact absurd rfl (hr [] (by simp))
        | cons a r1 => exact ⟨a, r1, rfl⟩
      cases rs2 with
      | nil =>
          cases fuel with
          | zero =>
              exfalso
              rw [List.length_append] at hfuel
              have : (']' :: rest).length = rest.length + 1 := rfl
              omega
          | succ f =>
              have hfuelE :
                  (joinSep ((a :: r1).map intChars) ++
                    ']' :: ']' :: rest).length ≤ f := by
                simp only [List.map_cons, List.map_nil, joinSep, rowChars,
                  List.length_append, List.length_cons,
                  List.cons_append, List.append_assoc,
                  List.singleton_append] at hfuel ⊢
                omega
              have hE := parseEntriesAux_encoded (a :: r1) (']' :: rest) f
                (by simp) hfuelE
              simp only [List.map_cons] at hE
              have hsk2 : skipWs (']' :: rest) = ']' :: rest :=
                skipWs_of_head_not_space
                  (head_cons_not_space (by decide) rest)
              simp only [List.map_cons, List.map_nil, joinSep, rowChars,
                List.cons_append, List.append_assoc, List.singleton_append,
                List.nil_append]
              simp only [parseRowsAux, List.head?_cons, List.tail_cons,
                if_true]
              rw [skipWs_joinSep_intChars a r1 (']' :: ']' :: rest), hE,
                except_bind_ok]
              rw [hsk2]
              simp only [List.head?_cons, List.tail_cons]
              simp
      | cons r2 rs3 =>
          cases fuel with
          | zero =>
              exfalso
              rw [List.length_append] at hfuel
              have : (']' :: rest).length = rest.length + 1 := rfl
              omega
          | succ f =>
              have hr2 : ∀ x ∈ r2 :: rs3, x ≠ [] := by
                intro x hx
                exact hr x (by simp [hx])
              have hfuelE :
                  (joinSep ((a :: r1).map intChars) ++
                    ']' :: ',' :: ' ' ::
                    (joinSep (rowChars r2 :: rs3.map rowChars) ++
                      ']' :: rest)).length ≤ f := by
                simp only [List.map_cons, joinSep, rowChars,
                  List.length_append, List.length_cons,
                  List.cons_append, List.append_assoc,
                  List.singleton_append] at hfuel ⊢
                omega
              have hfuelR :
                  (joinSep ((r2 :: rs3).map rowChars) ++
                    ']' :: rest).length ≤ f := by
                simp only [List.map_cons, joinSep, rowChars,
                  List.length_append, List.length_cons,
                  List.cons_append, List.append_assoc,
                  List.singleton_append] at hfuel ⊢
                omega
              have hE := parseEntriesAux_encoded (a :: r1)
                (',' :: ' ' :: (joinSep (rowChars r2 :: rs3.map rowChars) ++
                  ']' :: rest)) f (by simp) hfuelE
              simp only [List.map_cons] at hE
              have hih := ih rest f (by simp) hr2 hfuelR
              simp only [List.map_cons] at hih
              have hsk1 : skipWs (',' :: ' ' ::
                  (joinSep (rowChars r2 :: rs3.map rowChars) ++
                    ']' :: rest)) =
                  ',' :: ' ' ::
                  (joinSep (rowChars r2 :: rs3.map rowChars) ++
                    ']' :: rest) :=
                skipWs_of_head_not_space (head_cons_not_space (by decide) _)
              have hshape :
                  joinSep (((a :: r1) :: r2 :: rs3).map rowChars) ++
                    ']' :: rest =
                  '[' :: (joinSep (intChars a :: r1.map intChars) ++
                    ']' :: ',' :: ' ' ::
                    (joinSep (rowChars r2 :: rs3.map rowChars) ++
                      ']' :: rest)) := by
                simp [joinSep, rowChars, List.append_assoc]
              rw [hshape]
              simp only [parseRowsAux, List.head?_cons, List.tail_cons,
                if_true]
              rw [skipWs_joinSep_intChars a r1
                (']' :: ',' :: ' ' ::
                  (joinSep (rowChars r2 :: rs3.map rowChars) ++
                    ']' :: rest)), hE, except_bind_ok]
              rw [hsk1]
              simp only [List.head?_cons, List.tail_cons, if_true]
              rw [skipWs_space_cons, skipWs_joinSep_rowChars r2 rs3
                (']' :: rest), hih, except_map_ok]
              simp

/-! ### The round trip itself -/

theorem dropWhile_append_all {p : Char → Bool} {xs ys : List Char}
    (h : ∀ x ∈ xs, p x = true) :
    (xs ++ ys).dropWhile p = ys.dropWhile p := by
  induction xs with
  | nil => rfl
  | cons a as ih =>
      simp only [List.cons_append, List.dropWhile_cons, h a (by simp),
        if_true]
      exact ih fun x hx => h x (by simp [hx])

theorem validIdentChar_ne_lbracket {c : Char} (h : validIdentChar c = true) :
    (c != '[') = true := by
  simp only [bne_iff_ne, ne_eq]
  intro heq
  rw [heq] at h
  exact absurd h (by decide)

theorem identHead_ne_lbracket {c : Char} (h : (c.isAlpha || c == '_') = true) :
    (c != '[') = true := by
  simp only [bne_iff_ne, ne_eq]
  intro heq
  rw [heq] at h
  exact absurd h (by decide)

theorem validIdent_no_lbracket {s : String} (h : validIdent s = true) :
    ∀ c ∈ s.data, (c != '[') = true := by
  intro c hc
  unfold validIdent at h
  cases hd : s.data with
  | nil => rw [hd] at hc; simp at hc
  | cons c0 cs =>
      rw [hd] at h hc
      simp only [Bool.and_eq_true] at h
      rcases List.mem_cons.mp hc with rfl | hmem
      · exact identHead_ne_lbracket h.1
      · exact validIdentChar_ne_lbracket (List.all_eq_true.mp h.2 c hmem)

/-- C1: the literal codec round trip on integer matrices — for every
rectangular, non-degenerate integer matrix `M` and valid identifier `V`,
parsing the formatted assignment recovers `M` entry for entry exactly. -/
theorem parse_format_roundtrip (M : List (List ℤ)) (V : String)
    (hV : validIdent V = true) (hM : M ≠ []) (hrows : ∀ r ∈ M, r ≠ [])
    (hrect : ∀ r1 ∈ M, ∀ r2 ∈ M, r1.length = r2.length) :
    parse_matrix_literal (format_matrix_as_sage M V) =
      .ok (M.map (List.map (fun z : ℤ => (z : ℚ)))) := by
  obtain ⟨m0, M1, rfl⟩ : ∃ m0 M1, M = m0 :: M1 := by
    cases M with
    | nil => exact absurd rfl hM
    | cons m0 M1 => exact ⟨m0, M1, rfl⟩
  have hdata : (format_matrix_as_sage (m0 :: M1) V).data =
      V.data ++ ' ' :: '=' :: ' ' :: matrixChars (m0 :: M1) := rfl
  have h1 : ((' ' : Char) != '[') = true := by decide
  have h2 : (('=' : Char) != '[') = true := by decide
  have h3 : (('[' : Char) != '[') = false := by decide
  have hdrop : (format_matrix_as_sage (m0 :: M1) V).data.dropWhile
      (fun c => c != '[') = matrixChars (m0 :: M1) := by
    rw [hdata, dropWhile_append_all (validIdent_no_lbracket hV)]
    simp only [matrixChars, List.cons_append, List.dropWhile_cons, h1, h2,
      h3, if_true, if_false]
    simp
  have hfuel : (joinSep ((m0 :: M1).map rowChars) ++
      ']' :: ([] : List Char)).length ≤
      (format_matrix_as_sage (m0 :: M1) V).data.length + 1 := by
    rw [hdata]
    simp only [matrixChars, List.length_append, List.length_cons,
      List.length_nil]
    omega
  have hrowsq := parseRowsAux_encoded (m0 :: M1) []
    ((format_matrix_as_sage (m0 :: M1) V).data.length + 1)
    (by simp) hrows hfuel
  simp only [List.map_cons] at hrowsq
  simp only [parse_matrix_literal, hdrop]
  simp only [matrixChars, List.cons_append, List.head?_cons,
    List.tail_cons, if_true, List.map_cons]
  rw [skipWs_joinSep_rowChars m0 M1 [']'], hrowsq, except_bind_ok]
  simp
  intro x hx
  exact hrect x (by simp [hx]) m0 (by simp)

/-- Concrete instance of `parse_format_roundtrip`: the assignment text of
`[[1, -2], [3, 4]]` under the name `M` parses back to the same matrix. -/
theorem parse_format_roundtrip_witness :
    parse_matrix_literal (format_matrix_as_sage [[1, -2], [3, 4]] "M") =
      .ok [[1, -2], [3, 4]] := by
  have h := parse_format_roundtrip [[1, -2], [3, 4]] "M" (by decide)
    (by decide) (by decide) (by decide)
  simpa using h
